import Mathlib

/-
Verification of the identifier-normalization core of app.py.

The pipeline of process_contract_ids (app.py lines 112-148) is embedded
over lists of characters: the regex substitution of non-digit runs, the
comma split, the strip and empty filters, the nan filter, the trailing
dot-zero replace, the numeric coercion to Int64 with its whole-batch
string fallback, dropna, first-occurrence deduplication, and the final
decimal rendering of line 180.  format_sql_list embeds line 181.

Two distinct digit classes drive the pipeline and are modelled separately:
the regex d of line 121 matches every Unicode decimal digit (category Nd,
embedded as the decade table ndStarts), while the C-level parser behind
pd.to_numeric only accepts ASCII digits, coercing any other token to a
missing value that dropna then removes.
-/

set_option maxRecDepth 4000

/-- Decade starts of the Unicode decimal-digit category Nd: each entry lo
covers the ten digit codepoints lo .. lo+9, carrying the digit values 0 to 9.
Together these decades are exactly the class matched by the regex d (and
rejected by the regex D) of app.py line 121 under Python 3 re on str, which is
Unicode-aware. -/
def ndStarts : List Nat :=
  [48, 1632, 1776, 1984, 2406, 2534, 2662, 2790, 2918, 3046, 3174, 3302, 3430,
   3558, 3664, 3792, 3872, 4160, 4240, 6112, 6160, 6470, 6608, 6784, 6800, 6992,
   7088, 7232, 7248, 42528, 43216, 43264, 43472, 43504, 43600, 44016, 65296,
   66720, 68912, 69734, 69872, 69942, 70096, 70384, 70736, 70864, 71248, 71360,
   71472, 71904, 72016, 72784, 73040, 73120, 92768, 92864, 93008, 120782, 120792,
   120802, 120812, 120822, 123200, 123632, 125264, 130032]

/-- Unicode decimal digit: the character class matched by the regex d of
app.py line 121. -/
def isDigitChar (c : Char) : Bool :=
  ndStarts.any (fun lo => decide (lo ≤ c.toNat ∧ c.toNat ≤ lo + 9))

/-- ASCII digit 0-9 (the anchored class [0-9] of the spec, and the only digit
shape the C-level parser behind pd.to_numeric accepts; a token containing any
other character fails to parse there and is coerced to a missing value). -/
def isAsciiDigit (c : Char) : Bool := decide (48 ≤ c.toNat ∧ c.toNat ≤ 57)

/-- One pass of the regex substitution of line 121 of app.py: every maximal run
of non-digit characters is replaced by a single comma.  The Boolean flag records
whether the scanner is inside a non-digit run whose comma was already emitted. -/
def subNonDigitsAux : Bool → List Char → List Char
  | _, [] => []
  | inRun, c :: cs =>
    if isDigitChar c then c :: subNonDigitsAux false cs
    else if inRun then subNonDigitsAux true cs
    else ',' :: subNonDigitsAux true cs

/-- re.sub of the pattern D+ with a comma (app.py line 121). -/
def subNonDigits (text : List Char) : List Char := subNonDigitsAux false text

/-- Python str.split on a comma (app.py line 124); on the empty string it
returns a single empty piece, as in Python. -/
def splitComma : List Char → List (List Char)
  | [] => [[]]
  | c :: cs =>
    if c = ',' then [] :: splitComma cs
    else
      match splitComma cs with
      | [] => [[c]]
      | t :: ts => (c :: t) :: ts

/-- ASCII whitespace; after the substitution of line 121 no whitespace survives,
so this models Python str.strip faithfully on every reachable token. -/
def isWsChar (c : Char) : Bool := decide (c = ' ' ∨ c = '\t' ∨ c = '\n' ∨ c = '\r')

/-- Python str.strip (app.py line 124). -/
def pyStrip (l : List Char) : List Char :=
  ((l.dropWhile isWsChar).reverse.dropWhile isWsChar).reverse

/-- Lines 121-124 of app.py: substitute non-digit runs by commas, split on the
comma, strip each piece and discard the empty pieces. -/
def tokensOf (text : List Char) : List (List Char) :=
  ((splitComma (subNonDigits text)).map pyStrip).filter (fun t => t ≠ [])

/-- Python str.lower on an ASCII letter, codepoints 65-90 (app.py line 134);
the tokens reaching the nan test are digit-only, where lowering is the
identity, so the restriction to ASCII letters is invisible. -/
def pyLowerChar (c : Char) : Char :=
  if 65 ≤ c.toNat ∧ c.toNat ≤ 90 then Char.ofNat (c.toNat + 32) else c

/-- Python str.lower (app.py line 134). -/
def pyLower (l : List Char) : List Char := l.map pyLowerChar

/-- The regex replace of line 135 of app.py: remove one trailing dot-zero. -/
def stripDotZero (l : List Char) : List Char :=
  if l.reverse.take 2 = ['0', '.'] then (l.reverse.drop 2).reverse else l

/-- Numeric value of a digit string, most significant digit first. -/
def digitsToNat (l : List Char) : Nat := l.foldl (fun a c => 10 * a + (c.toNat - 48)) 0

/-- pd.to_numeric with coercion of failures (app.py line 138), on the value
space reachable in this pipeline: after line 121 every series element is a
maximal run of Unicode digits (theorem tokensOf_eq_digitRuns below).  The
C-level parser behind to_numeric accepts only the ASCII digit shape, parsing
such a string to its unsigned decimal value; every other element - in
particular a run containing a non-ASCII digit - fails to parse and is coerced
to a missing value (NaN). -/
def toNumeric (l : List Char) : Option Nat :=
  if l ≠ [] ∧ l.all isAsciiDigit then some (digitsToNat l) else none

/-- Largest value of the signed 64-bit type behind astype Int64 (line 139). -/
def int64Max : Nat := 9223372036854775807

/-- The cast astype Int64 of line 139 succeeds on a parsed element iff its value
is in Int64 range; a missing element passes through as NA and is removed by the
dropna of line 143. -/
def fitsInt64 (l : List Char) : Bool :=
  match toNumeric l with
  | some n => decide (n ≤ int64Max)
  | none => true

/-- Decimal digit characters. -/
def digitChar : Nat → Char
  | 0 => '0'
  | 1 => '1'
  | 2 => '2'
  | 3 => '3'
  | 4 => '4'
  | 5 => '5'
  | 6 => '6'
  | 7 => '7'
  | 8 => '8'
  | _ => '9'

/-- Decimal digits of a natural number, most significant first, with explicit
fuel so that the kernel can evaluate it; called with fuel larger than the
number, which is always sufficient. -/
def toDecCore : Nat → Nat → List Char → List Char
  | 0, _, acc => acc
  | fuel + 1, n, acc =>
    if n < 10 then digitChar n :: acc
    else toDecCore fuel (n / 10) (digitChar (n % 10) :: acc)

/-- Python str of a nonnegative int: the rendering done by astype(str) at
app.py line 180. -/
def natToDec (n : Nat) : List Char := toDecCore (n + 1) n []

/-- pandas drop_duplicates keeping the first occurrence (app.py line 146),
with an accumulator of the values already seen. -/
def dedupFirstAux {α : Type} [DecidableEq α] (seen : List α) : List α → List α
  | [] => []
  | x :: xs =>
    if x ∈ seen then dedupFirstAux seen xs else x :: dedupFirstAux (x :: seen) xs

/-- drop_duplicates keeping the first occurrence (app.py line 146). -/
def dedupFirst {α : Type} [DecidableEq α] (l : List α) : List α := dedupFirstAux [] l

/-- Index of the first occurrence of an element in a list (length of the list
when absent); used to state first-seen order. -/
def firstIdx {α : Type} [DecidableEq α] (a : α) : List α → Nat
  | [] => 0
  | x :: xs => if x = a then 0 else firstIdx a xs + 1

/-- process_contract_ids (app.py lines 112-148) composed with the astype(str)
rendering of its result column done at line 180, so that the result is the list
of identifier strings of the spec.  The falsiness test of line 116 accepts both
a missing input and the empty string; lines 133-135 are the empty filter, the
nan filter and the dot-zero replace; lines 137-143 are the numeric coercion:
when every parsed value fits in Int64 the column becomes integers and the
missing values left by unparseable tokens are dropped by dropna, otherwise the
astype raises and the except keeps the whole string column; line 146
deduplicates keeping first occurrences. -/
def process_contract_ids (raw : Option (List Char)) : List (List Char) :=
  match raw with
  | none => []
  | some text =>
    if text = [] then []
    else
      let ids := tokensOf text
      if ids = [] then []
      else
        let s1 := ids.filter (fun t => t ≠ [])
        let s2 := s1.filter (fun t => pyLower t ≠ ['n', 'a', 'n'])
        let s3 := s2.map stripDotZero
        if s3.all fitsInt64 then (dedupFirst (s3.filterMap toNumeric)).map natToDec
        else dedupFirst s3

/-- The ASCII single-quote character. -/
def sqChar : Char := Char.ofNat 39

/-- The SQL IN-clause rendering of app.py line 181 (format_sql_list of the
spec): each identifier wrapped in single quotes, joined by commas. -/
def format_sql_list (ids : List (List Char)) : List Char :=
  List.intercalate [','] (ids.map (fun t => sqChar :: (t ++ [sqChar])))

/-- Maximal runs of digit characters of a text, in order: the digit-run
extraction named by claim C10, written independently of the code pipeline.
The accumulator holds the run in progress. -/
def digitRunsAux (cur : List Char) : List Char → List (List Char)
  | [] => if cur = [] then [] else [cur]
  | c :: cs =>
    if isDigitChar c then digitRunsAux (cur ++ [c]) cs
    else (if cur = [] then [] else [cur]) ++ digitRunsAux [] cs

/-- Maximal digit runs of a text, in order. -/
def digitRuns (text : List Char) : List (List Char) := digitRunsAux [] text

/-- Proof helper: prepend a prefix onto the first piece of a split. -/
def consHead (cur : List Char) : List (List Char) → List (List Char)
  | [] => [cur]
  | t :: ts => (cur ++ t) :: ts

/-- The cleaned identifier sequence before deduplication: the series that
reaches line 146 of app.py, rendered as strings (used to state claim C5). -/
def cleanedSequence (text : List Char) : List (List Char) :=
  let ts := tokensOf text
  if ts.all fitsInt64 then (ts.filterMap toNumeric).map natToDec else ts

/-- The simplified function named by claim C10, from its words: extract the
maximal digit runs, canonicalize each as an integer, deduplicate keeping the
first occurrence.  The integer reading digitsToNat is exact on ASCII digit
runs, the domain to which the amended claim restricts the equality. -/
def simpleNormalize (text : List Char) : List (List Char) :=
  (dedupFirst ((digitRuns text).map digitsToNat)).map natToDec

theorem digitChar_ascii {d : Nat} (h : d < 10) : isAsciiDigit (digitChar d) = true := by
  interval_cases d <;> decide

theorem digitChar_val {d : Nat} (h : d < 10) : (digitChar d).toNat - 48 = d := by
  interval_cases d <;> decide

theorem ndStarts_facts : ∀ lo ∈ ndStarts, 48 ≤ lo ∧ (lo + 9 ≤ 57 ∨ 91 ≤ lo) := by decide

theorem digit_toNat_bounds {c : Char} (h : isDigitChar c = true) :
    48 ≤ c.toNat ∧ (c.toNat ≤ 57 ∨ 91 ≤ c.toNat) := by
  rw [isDigitChar, List.any_eq_true] at h
  obtain ⟨lo, hlo, hc⟩ := h
  have hb := of_decide_eq_true hc
  have hf := ndStarts_facts lo hlo
  omega

theorem ascii_isDigit {c : Char} (h : isAsciiDigit c = true) : isDigitChar c = true := by
  have hb := of_decide_eq_true h
  rw [isDigitChar, List.any_eq_true]
  exact ⟨48, by decide, decide_eq_true (by omega)⟩

theorem all_ascii_all_digit {l : List Char} (h : l.all isAsciiDigit = true) :
    l.all isDigitChar = true := by
  rw [List.all_eq_true] at h ⊢
  exact fun c hc => ascii_isDigit (h c hc)

theorem toDecCore_eq (n : Nat) :
    ∀ fuel acc, n < fuel → toDecCore fuel n acc = natToDec n ++ acc := by
  induction n using Nat.strong_induction_on with
  | _ n ih =>
    intro fuel acc h
    cases fuel with
    | zero => omega
    | succ f =>
      by_cases h10 : n < 10
      · simp [toDecCore, natToDec, h10]
      · have hdiv : n / 10 < n := Nat.div_lt_self (by omega) (by omega)
        have hrec : natToDec n = natToDec (n / 10) ++ [digitChar (n % 10)] := by
          have h1 : toDecCore (n + 1) n [] = toDecCore n (n / 10) [digitChar (n % 10)] := by
            simp only [toDecCore, if_neg h10]
          rw [natToDec, h1, ih (n / 10) hdiv n [digitChar (n % 10)] (by omega)]
        have h2 : toDecCore (f + 1) n acc = toDecCore f (n / 10) (digitChar (n % 10) :: acc) := by
          simp only [toDecCore, if_neg h10]
        rw [h2, ih (n / 10) hdiv f (digitChar (n % 10) :: acc) (by omega), hrec,
          List.append_assoc, List.singleton_append]

theorem natToDec_eq (n : Nat) :
    natToDec n = if n < 10 then [digitChar n] else natToDec (n / 10) ++ [digitChar (n % 10)] := by
  by_cases h10 : n < 10
  · simp only [natToDec, toDecCore, if_pos h10]
  · have h1 : toDecCore (n + 1) n [] = toDecCore n (n / 10) [digitChar (n % 10)] := by
      simp only [toDecCore, if_neg h10]
    have hdiv : n / 10 < n := Nat.div_lt_self (by omega) (by omega)
    rw [if_neg h10, natToDec, h1, toDecCore_eq (n / 10) n [digitChar (n % 10)] (by omega)]

theorem digitsToNat_append_one (l : List Char) (c : Char) :
    digitsToNat (l ++ [c]) = 10 * digitsToNat l + (c.toNat - 48) := by
  simp [digitsToNat, List.foldl_append]

theorem digitsToNat_natToDec (n : Nat) : digitsToNat (natToDec n) = n := by
  induction n using Nat.strong_induction_on with
  | _ n ih =>
    rw [natToDec_eq]
    by_cases h10 : n < 10
    · simp only [if_pos h10, digitsToNat, List.foldl_cons, List.foldl_nil]
      rw [digitChar_val h10]
      omega
    · have hdiv : n / 10 < n := Nat.div_lt_self (by omega) (by omega)
      rw [if_neg h10, digitsToNat_append_one, ih (n / 10) hdiv,
        digitChar_val (Nat.mod_lt _ (by omega))]
      omega

theorem natToDec_ne_nil (n : Nat) : natToDec n ≠ [] := by
  rw [natToDec_eq]
  by_cases h10 : n < 10 <;> simp [h10]

theorem natToDec_all_ascii (n : Nat) : (natToDec n).all isAsciiDigit = true := by
  induction n using Nat.strong_induction_on with
  | _ n ih =>
    rw [natToDec_eq]
    by_cases h10 : n < 10
    · simp [h10, digitChar_ascii h10]
    · have hdiv : n / 10 < n := Nat.div_lt_self (by omega) (by omega)
      simp [h10, List.all_append, ih (n / 10) hdiv,
        digitChar_ascii (Nat.mod_lt _ (by omega : (0:Nat) < 10))]

theorem natToDec_all_digit (n : Nat) : (natToDec n).all isDigitChar = true :=
  all_ascii_all_digit (natToDec_all_ascii n)

theorem natToDec_inj {m n : Nat} (h : natToDec m = natToDec n) : m = n := by
  have h2 := congrArg digitsToNat h
  rwa [digitsToNat_natToDec, digitsToNat_natToDec] at h2

theorem mem_dedupFirstAux {α : Type} [DecidableEq α] (a : α) :
    ∀ (l seen : List α), a ∈ dedupFirstAux seen l ↔ a ∈ l ∧ a ∉ seen := by
  intro l
  induction l with
  | nil => intro seen; simp [dedupFirstAux]
  | cons x xs ih =>
    intro seen
    by_cases hx : x ∈ seen
    · rw [dedupFirstAux, if_pos hx, ih]
      constructor
      · rintro ⟨h1, h2⟩
        exact ⟨List.mem_cons_of_mem _ h1, h2⟩
      · rintro ⟨h1, h2⟩
        rcases List.mem_cons.mp h1 with rfl | h1
        · exact absurd hx h2
        · exact ⟨h1, h2⟩
    · rw [dedupFirstAux, if_neg hx, List.mem_cons, ih]
      constructor
      · rintro (rfl | ⟨h1, h2⟩)
        · exact ⟨List.mem_cons_self _ _, hx⟩
        · exact ⟨List.mem_cons_of_mem _ h1,
            fun hs => h2 (List.mem_cons_of_mem _ hs)⟩
      · rintro ⟨h1, h2⟩
        by_cases hax : a = x
        · exact Or.inl hax
        · right
          rcases List.mem_cons.mp h1 with rfl | h1
        -- a = x is impossible here
          · exact absurd rfl hax
          · refine ⟨h1, fun hs => ?_⟩
            rcases List.mem_cons.mp hs with rfl | hs
            · exact hax rfl
            · exact h2 hs

theorem dedupFirstAux_nodup {α : Type} [DecidableEq α] :
    ∀ (l seen : List α), (dedupFirstAux seen l).Nodup := by
  intro l
  induction l with
  | nil => intro seen; simp [dedupFirstAux]
  | cons x xs ih =>
    intro seen
    by_cases hx : x ∈ seen
    · rw [dedupFirstAux, if_pos hx]
      exact ih seen
    · rw [dedupFirstAux, if_neg hx]
      refine List.nodup_cons.mpr ⟨fun hmem => ?_, ih _⟩
      exact ((mem_dedupFirstAux x xs (x :: seen)).mp hmem).2 (List.mem_cons_self _ _)

theorem dedupFirst_nodup {α : Type} [DecidableEq α] (l : List α) : (dedupFirst l).Nodup :=
  dedupFirstAux_nodup l []

theorem mem_dedupFirst {α : Type} [DecidableEq α] (a : α) (l : List α) :
    a ∈ dedupFirst l ↔ a ∈ l := by
  rw [dedupFirst, mem_dedupFirstAux]
  simp

theorem dedupFirstAux_sublist {α : Type} [DecidableEq α] :
    ∀ (l seen : List α), (dedupFirstAux seen l).Sublist l := by
  intro l
  induction l with
  | nil => intro seen; simp [dedupFirstAux]
  | cons x xs ih =>
    intro seen
    by_cases hx : x ∈ seen
    · rw [dedupFirstAux, if_pos hx]
      exact (ih seen).trans (List.sublist_cons_self x xs)
    · rw [dedupFirstAux, if_neg hx]
      exact (ih (x :: seen)).cons₂ x

theorem dedupFirstAux_eq_self {α : Type} [DecidableEq α] :
    ∀ (l seen : List α), l.Nodup → (∀ a ∈ l, a ∉ seen) → dedupFirstAux seen l = l := by
  intro l
  induction l with
  | nil => intro seen _ _; rfl
  | cons x xs ih =>
    intro seen hnd hdisj
    rw [dedupFirstAux, if_neg (hdisj x (List.mem_cons_self _ _))]
    congr 1
    refine ih _ (List.nodup_cons.mp hnd).2 ?_
    intro a ha hmem
    rcases List.mem_cons.mp hmem with rfl | hmem
    · exact (List.nodup_cons.mp hnd).1 ha
    · exact hdisj a (List.mem_cons_of_mem _ ha) hmem

theorem dedupFirst_eq_self {α : Type} [DecidableEq α] {l : List α} (h : l.Nodup) :
    dedupFirst l = l := dedupFirstAux_eq_self l [] h (by simp)

theorem dedupFirstAux_map {α β : Type} [DecidableEq α] [DecidableEq β] (f : α → β)
    (hf : Function.Injective f) :
    ∀ (l seen : List α), dedupFirstAux (seen.map f) (l.map f) = (dedupFirstAux seen l).map f := by
  intro l
  induction l with
  | nil => intro seen; rfl
  | cons x xs ih =>
    intro seen
    by_cases hx : x ∈ seen
    · rw [List.map_cons, dedupFirstAux, if_pos (List.mem_map_of_mem f hx),
        dedupFirstAux, if_pos hx, ih]
    · have hfx : f x ∉ seen.map f := by
        intro hmem
        rcases List.mem_map.mp hmem with ⟨y, hy, hfy⟩
        exact hx (hf hfy ▸ hy)
      rw [List.map_cons, dedupFirstAux, if_neg hfx, dedupFirstAux, if_neg hx, List.map_cons,
        ← ih (x :: seen), List.map_cons]

theorem dedupFirst_map {α β : Type} [DecidableEq α] [DecidableEq β] (f : α → β)
    (hf : Function.Injective f) (l : List α) :
    dedupFirst (l.map f) = (dedupFirst l).map f := by
  rw [dedupFirst, dedupFirst, ← dedupFirstAux_map f hf l []]
  rfl

theorem dedupFirstAux_pairwise {α : Type} [DecidableEq α] :
    ∀ (l seen : List α),
      (dedupFirstAux seen l).Pairwise (fun a b => firstIdx a l < firstIdx b l) := by
  intro l
  induction l with
  | nil => intro seen; simp [dedupFirstAux]
  | cons x xs ih =>
    intro seen
    by_cases hx : x ∈ seen
    · rw [dedupFirstAux, if_pos hx]
      refine List.Pairwise.imp_of_mem ?_ (ih seen)
      intro a b ha hb hab
      have ha2 := (mem_dedupFirstAux a xs seen).mp ha
      have hb2 := (mem_dedupFirstAux b xs seen).mp hb
      have hax : x ≠ a := by rintro rfl; exact ha2.2 hx
      have hbx : x ≠ b := by rintro rfl; exact hb2.2 hx
      rw [firstIdx, if_neg hax, firstIdx, if_neg hbx]
      omega
    · rw [dedupFirstAux, if_neg hx]
      refine List.pairwise_cons.mpr ⟨?_, ?_⟩
      · intro b hb
        have hb2 := (mem_dedupFirstAux b xs (x :: seen)).mp hb
        have hbx : x ≠ b := by rintro rfl; exact hb2.2 (List.mem_cons_self _ _)
        rw [firstIdx, if_pos rfl, firstIdx, if_neg hbx]
        omega
      · refine List.Pairwise.imp_of_mem ?_ (ih (x :: seen))
        intro a b ha hb hab
        have ha2 := (mem_dedupFirstAux a xs (x :: seen)).mp ha
        have hb2 := (mem_dedupFirstAux b xs (x :: seen)).mp hb
        have hax : x ≠ a := by rintro rfl; exact ha2.2 (List.mem_cons_self _ _)
        have hbx : x ≠ b := by rintro rfl; exact hb2.2 (List.mem_cons_self _ _)
        rw [firstIdx, if_neg hax, firstIdx, if_neg hbx]
        omega

theorem dedupFirst_pairwise {α : Type} [DecidableEq α] (l : List α) :
    (dedupFirst l).Pairwise (fun a b => firstIdx a l < firstIdx b l) :=
  dedupFirstAux_pairwise l []

theorem digit_ne_comma {c : Char} (h : isDigitChar c = true) : c ≠ ',' := by
  rintro rfl
  exact absurd h (by decide)

theorem digit_not_ws {c : Char} (h : isDigitChar c = true) : isWsChar c = false := by
  rw [isWsChar, decide_eq_false_iff_not]
  rintro (rfl | rfl | rfl | rfl) <;> exact absurd h (by decide)

theorem dropWhile_ws_of_digits {l : List Char} (h : l.all isDigitChar = true) :
    l.dropWhile isWsChar = l := by
  cases l with
  | nil => rfl
  | cons c cs =>
    rw [List.all_cons, Bool.and_eq_true] at h
    rw [List.dropWhile_cons, digit_not_ws h.1]
    simp

theorem pyStrip_of_digits {l : List Char} (h : l.all isDigitChar = true) : pyStrip l = l := by
  have hrev : l.reverse.all isDigitChar = true := by
    rw [List.all_eq_true] at h ⊢
    intro c hc
    exact h c (List.mem_reverse.mp hc)
  rw [pyStrip, dropWhile_ws_of_digits h, dropWhile_ws_of_digits hrev, List.reverse_reverse]

theorem splitComma_ne_nil : ∀ m : List Char, splitComma m ≠ [] := by
  intro m
  cases m with
  | nil => simp [splitComma]
  | cons c cs =>
    rw [splitComma]
    by_cases hc : c = ','
    · simp [hc]
    · rw [if_neg hc]
      cases splitComma cs <;> simp

theorem subAux_members :
    ∀ (l : List Char) (b : Bool), ∀ c ∈ subNonDigitsAux b l, c = ',' ∨ isDigitChar c = true := by
  intro l
  induction l with
  | nil => intro b c hc; simp [subNonDigitsAux] at hc
  | cons x xs ih =>
    intro b c hc
    rw [subNonDigitsAux] at hc
    by_cases hx : isDigitChar x
    · rw [if_pos hx] at hc
      rcases List.mem_cons.mp hc with rfl | hc2
      · exact Or.inr hx
      · exact ih false c hc2
    · rw [if_neg hx] at hc
      cases b with
      | true =>
        simp only [if_pos] at hc
        exact ih true c hc
      | false =>
        simp only [Bool.false_eq_true, if_false] at hc
        rcases List.mem_cons.mp hc with rfl | hc2
        · exact Or.inl rfl
        · exact ih true c hc2

theorem splitComma_members :
    ∀ m : List Char, (∀ c ∈ m, c = ',' ∨ isDigitChar c = true) →
      ∀ t ∈ splitComma m, t.all isDigitChar = true := by
  intro m
  induction m with
  | nil =>
    intro _ t ht
    simp [splitComma] at ht
    simp [ht]
  | cons c cs ih =>
    intro hm t ht
    have ihcs := ih (fun d hd => hm d (List.mem_cons_of_mem _ hd))
    rw [splitComma] at ht
    by_cases hc : c = ','
    · rw [if_pos hc] at ht
      rcases List.mem_cons.mp ht with rfl | ht2
      · rfl
      · exact ihcs t ht2
    · have hcd : isDigitChar c = true := (hm c (List.mem_cons_self _ _)).resolve_left hc
      rw [if_neg hc] at ht
      cases hsp : splitComma cs with
      | nil => exact absurd hsp (splitComma_ne_nil cs)
      | cons u us =>
        rw [hsp] at ht
        rcases List.mem_cons.mp ht with rfl | ht2
        · have hu : u.all isDigitChar = true := ihcs u (hsp ▸ List.mem_cons_self _ _)
          simp [List.all_cons, hcd, hu]
        · exact ihcs t (hsp ▸ List.mem_cons_of_mem _ ht2)

theorem splitTokens_eq :
    ∀ l : List Char,
      (∀ cur, (consHead cur (splitComma (subNonDigitsAux false l))).filter
          (fun t => t ≠ []) = digitRunsAux cur l)
      ∧ (splitComma (subNonDigitsAux true l)).filter (fun t => t ≠ []) = digitRunsAux [] l := by
  intro l
  induction l with
  | nil =>
    constructor
    · intro cur
      by_cases hcur : cur = [] <;>
        simp [subNonDigitsAux, splitComma, consHead, digitRunsAux, hcur]
    · simp [subNonDigitsAux, splitComma, digitRunsAux]
  | cons c cs ih =>
    obtain ⟨ihP, ihQ⟩ := ih
    by_cases hc : isDigitChar c
    · have hne : c ≠ ',' := digit_ne_comma hc
      obtain ⟨t, ts, hsp⟩ := List.exists_cons_of_ne_nil (splitComma_ne_nil (subNonDigitsAux false cs))
      constructor
      · intro cur
        rw [subNonDigitsAux, if_pos hc, splitComma, if_neg hne, hsp, digitRunsAux, if_pos hc,
          ← ihP (cur ++ [c]), hsp]
        simp [consHead]
      · rw [subNonDigitsAux, if_pos hc, splitComma, if_neg hne, hsp, digitRunsAux, if_pos hc,
          ← ihP ([] ++ [c]), hsp]
        simp [consHead]
    · constructor
      · intro cur
        have h1 : subNonDigitsAux false (c :: cs) = ',' :: subNonDigitsAux true cs := by
          rw [subNonDigitsAux, if_neg hc]
          simp
        rw [h1, splitComma, if_pos rfl, digitRunsAux, if_neg hc, ← ihQ]
        cases hspt : splitComma (subNonDigitsAux true cs) with
        | nil => exact absurd hspt (splitComma_ne_nil _)
        | cons u us =>
          by_cases hcur : cur = [] <;>
            simp [consHead, List.filter_cons, hcur]
      · have h1 : subNonDigitsAux true (c :: cs) = subNonDigitsAux true cs := by
          rw [subNonDigitsAux, if_neg hc]
          simp
        rw [h1, ihQ, digitRunsAux, if_neg hc]
        simp
theorem tokensOf_eq_digitRuns (text : List Char) : tokensOf text = digitRuns text := by
  have hmem : ∀ t ∈ splitComma (subNonDigits text), t.all isDigitChar = true :=
    splitComma_members _ (subAux_members text false)
  have hmap : (splitComma (subNonDigits text)).map pyStrip = splitComma (subNonDigits text) := by
    have h1 : ∀ t ∈ splitComma (subNonDigits text), pyStrip t = id t :=
      fun t ht => pyStrip_of_digits (hmem t ht)
    rw [List.map_congr_left h1, List.map_id]
  obtain ⟨t, ts, hsp⟩ := List.exists_cons_of_ne_nil (splitComma_ne_nil (subNonDigits text))
  have hP := (splitTokens_eq text).1 []
  rw [tokensOf, hmap]
  rw [show subNonDigitsAux false text = subNonDigits text from rfl] at hP
  rw [hsp] at hP ⊢
  simpa [consHead, digitRuns] using hP

theorem digitRunsAux_members :
    ∀ (l cur : List Char), cur.all isDigitChar = true →
      ∀ t ∈ digitRunsAux cur l, t ≠ [] ∧ t.all isDigitChar = true := by
  intro l
  induction l with
  | nil =>
    intro cur hcur t ht
    rw [digitRunsAux] at ht
    by_cases hc : cur = []
    · simp [hc] at ht
    · rw [if_neg hc] at ht
      simp only [List.mem_singleton] at ht
      subst ht
      exact ⟨hc, hcur⟩
  | cons c cs ih =>
    intro cur hcur t ht
    rw [digitRunsAux] at ht
    by_cases hc : isDigitChar c
    · rw [if_pos hc] at ht
      exact ih (cur ++ [c]) (by simp [List.all_append, hcur, hc]) t ht
    · rw [if_neg hc] at ht
      rcases List.mem_append.mp ht with h1 | h2
      · by_cases hcc : cur = []
        · simp [hcc] at h1
        · rw [if_neg hcc] at h1
          simp only [List.mem_singleton] at h1
          subst h1
          exact ⟨hcc, hcur⟩
      · exact ih [] rfl t h2

theorem tokensOf_members (text : List Char) :
    ∀ t ∈ tokensOf text, t ≠ [] ∧ t.all isDigitChar = true := by
  rw [tokensOf_eq_digitRuns]
  exact digitRunsAux_members text [] rfl

theorem pyLowerChar_digit {c : Char} (h : isDigitChar c = true) : pyLowerChar c = c := by
  have hb := digit_toNat_bounds h
  rw [pyLowerChar, if_neg]
  rintro ⟨h1, h2⟩
  omega

theorem pyLower_ne_nan {t : List Char} (hne : t ≠ []) (h : t.all isDigitChar = true) :
    pyLower t ≠ ['n', 'a', 'n'] := by
  have hid : pyLower t = t := by
    rw [pyLower]
    have h1 : ∀ c ∈ t, pyLowerChar c = id c := by
      intro c hc
      rw [List.all_eq_true] at h
      exact pyLowerChar_digit (h c hc)
    rw [List.map_congr_left h1, List.map_id]
  rw [hid]
  rintro rfl
  rw [List.all_eq_true] at h
  exact absurd (h 'n' (List.mem_cons_self _ _)) (by decide)

theorem stripDotZero_digit {t : List Char} (h : t.all isDigitChar = true) :
    stripDotZero t = t := by
  rw [stripDotZero, if_neg]
  intro heq
  have h1 : '.' ∈ t.reverse.take 2 := by
    rw [heq]
    simp
  have hdot : '.' ∈ t := List.mem_reverse.mp (List.take_subset 2 t.reverse h1)
  rw [List.all_eq_true] at h
  exact absurd (h '.' hdot) (by decide)

theorem toNumeric_ascii {t : List Char} (hne : t ≠ []) (h : t.all isAsciiDigit = true) :
    toNumeric t = some (digitsToNat t) := by
  rw [toNumeric, if_pos ⟨hne, h⟩]

theorem filterMap_toNumeric :
    ∀ ts : List (List Char), (∀ t ∈ ts, t ≠ [] ∧ t.all isAsciiDigit = true) →
      ts.filterMap toNumeric = ts.map digitsToNat := by
  intro ts
  induction ts with
  | nil => intro _; rfl
  | cons x xs ih =>
    intro h
    have hx := h x (List.mem_cons_self _ _)
    simp only [List.filterMap_cons, toNumeric_ascii hx.1 hx.2, List.map_cons]
    rw [ih (fun t ht => h t (List.mem_cons_of_mem _ ht))]

theorem vals_le (ts : List (List Char)) (hall : ts.all fitsInt64 = true) :
    ∀ n ∈ ts.filterMap toNumeric, n ≤ int64Max := by
  intro n hn
  obtain ⟨t, ht, htn⟩ := List.mem_filterMap.mp hn
  have h2 := List.all_eq_true.mp hall t ht
  simp only [fitsInt64, htn] at h2
  exact of_decide_eq_true h2

/-- Characterization of process_contract_ids on a present input: the tokens of
lines 121-124 pass unchanged through the filters of lines 133-135, and the
numeric coercion of lines 137-143 either - when every parsed value fits in
Int64 - canonicalizes the parseable tokens as integers and drops the
unparseable ones (their missing values are removed by dropna), or - when some
parsed value overflows Int64 and the astype raises - keeps every token string;
line 146 deduplicates. -/
theorem process_some_eq (text : List Char) :
    process_contract_ids (some text) =
      if (tokensOf text).all fitsInt64 then
        (dedupFirst ((tokensOf text).filterMap toNumeric)).map natToDec
      else dedupFirst (tokensOf text) := by
  by_cases htext : text = []
  · subst htext
    decide
  · by_cases hids : tokensOf text = []
    · simp [process_contract_ids, htext, hids, dedupFirst, dedupFirstAux]
    · have hfacts := tokensOf_members text
      have hs1 : (tokensOf text).filter (fun t => t ≠ []) = tokensOf text :=
        List.filter_eq_self.mpr (fun t ht => decide_eq_true (hfacts t ht).1)
      have hs2 : (tokensOf text).filter (fun t => pyLower t ≠ ['n', 'a', 'n']) = tokensOf text :=
        List.filter_eq_self.mpr
          (fun t ht => decide_eq_true (pyLower_ne_nan (hfacts t ht).1 (hfacts t ht).2))
      have hs3 : (tokensOf text).map stripDotZero = tokensOf text := by
        have h1 : ∀ t ∈ tokensOf text, stripDotZero t = id t :=
          fun t ht => stripDotZero_digit (hfacts t ht).2
        rw [List.map_congr_left h1, List.map_id]
      simp only [process_contract_ids, if_neg htext, if_neg hids, hs1, hs2, hs3]

theorem natToDec_injective : Function.Injective natToDec := fun _ _ h => natToDec_inj h

theorem intercalate_comma_cons (x : List Char) (xs : List (List Char)) :
    List.intercalate [','] (x :: xs) =
      x ++ (if xs = [] then [] else ',' :: List.intercalate [','] xs) := by
  cases xs with
  | nil => simp [List.intercalate]
  | cons y ys => simp [List.intercalate, List.intersperse]

theorem digitRunsAux_append_digits :
    ∀ (r : List Char), r.all isDigitChar = true → ∀ (cur l : List Char),
      digitRunsAux cur (r ++ l) = digitRunsAux (cur ++ r) l := by
  intro r
  induction r with
  | nil =>
    intro _ cur l
    simp
  | cons c r2 ih =>
    intro hall cur l
    rw [List.all_cons, Bool.and_eq_true] at hall
    rw [List.cons_append, digitRunsAux, if_pos hall.1, ih hall.2]
    simp

theorem digitRunsAux_comma (cur l : List Char) :
    digitRunsAux cur (',' :: l) = (if cur = [] then [] else [cur]) ++ digitRunsAux [] l := by
  rw [digitRunsAux, if_neg (by decide)]

theorem digitRuns_join :
    ∀ rs : List (List Char), (∀ r ∈ rs, r ≠ [] ∧ r.all isDigitChar = true) →
      digitRuns (List.intercalate [','] rs) = rs := by
  intro rs
  induction rs with
  | nil => intro _; rfl
  | cons r rs2 ih =>
    intro h
    have hr := h r (List.mem_cons_self _ _)
    rw [intercalate_comma_cons]
    by_cases hrs : rs2 = []
    · subst hrs
      have h2 := digitRunsAux_append_digits r hr.2 [] []
      simp only [List.append_nil, List.nil_append] at h2
      rw [if_pos (rfl : ([] : List (List Char)) = []), List.append_nil, digitRuns, h2,
        digitRunsAux, if_neg hr.1]
    · rw [if_neg hrs, digitRuns, digitRunsAux_append_digits r hr.2 [] _, List.nil_append,
        digitRunsAux_comma, if_neg hr.1,
        show digitRunsAux [] (List.intercalate [','] rs2) = digitRuns (List.intercalate [','] rs2)
          from rfl,
        ih (fun u hu => h u (List.mem_cons_of_mem _ hu)), List.singleton_append]

/-- process_contract_ids is the first-occurrence deduplication of the cleaned
identifier sequence. -/
theorem process_some_eq_dedup (text : List Char) :
    process_contract_ids (some text) = dedupFirst (cleanedSequence text) := by
  rw [process_some_eq]
  simp only [cleanedSequence]
  by_cases hfit : (tokensOf text).all fitsInt64 = true
  · rw [if_pos hfit, if_pos hfit, dedupFirst_map natToDec natToDec_injective]
  · rw [if_neg hfit, if_neg hfit]

/-- Every element of a result of process_contract_ids is a nonempty string of
Unicode digit characters (the class of line 121). -/
theorem process_members (text : List Char) :
    ∀ t ∈ process_contract_ids (some text), t ≠ [] ∧ t.all isDigitChar = true := by
  rw [process_some_eq]
  by_cases hfit : (tokensOf text).all fitsInt64 = true
  · rw [if_pos hfit]
    intro t ht
    obtain ⟨n, _, rfl⟩ := List.mem_map.mp ht
    exact ⟨natToDec_ne_nil n, natToDec_all_digit n⟩
  · rw [if_neg hfit]
    intro t ht
    exact tokensOf_members text t ((mem_dedupFirst t _).mp ht)

/-- Idempotence core: re-normalizing the comma-join of a result reproduces it. -/
theorem process_idem (text : List Char) :
    process_contract_ids
      (some (List.intercalate [','] (process_contract_ids (some text)))) =
      process_contract_ids (some text) := by
  cases hr : process_contract_ids (some text) with
  | nil =>
    show process_contract_ids (some []) = []
    decide
  | cons r0 rrest =>
    have hmem : ∀ t ∈ process_contract_ids (some text), t ≠ [] ∧ t.all isDigitChar = true :=
      process_members text
    rw [← hr]
    have hruns : digitRuns (List.intercalate [','] (process_contract_ids (some text))) =
        process_contract_ids (some text) := digitRuns_join _ hmem
    rw [process_some_eq (List.intercalate [','] (process_contract_ids (some text))),
      tokensOf_eq_digitRuns, hruns]
    rw [process_some_eq text]
    by_cases hfit : (tokensOf text).all fitsInt64 = true
    · rw [if_pos hfit]
      set vals := (tokensOf text).filterMap toNumeric with hvals
      have hascii : ∀ t ∈ (dedupFirst vals).map natToDec,
          t ≠ [] ∧ t.all isAsciiDigit = true := by
        intro t ht
        obtain ⟨n, _, rfl⟩ := List.mem_map.mp ht
        exact ⟨natToDec_ne_nil n, natToDec_all_ascii n⟩
      have hfm : ((dedupFirst vals).map natToDec).filterMap toNumeric =
          ((dedupFirst vals).map natToDec).map digitsToNat :=
        filterMap_toNumeric _ hascii
      have hmapmap : ((dedupFirst vals).map natToDec).map digitsToNat = dedupFirst vals := by
        rw [List.map_map]
        have h1 : ∀ n ∈ dedupFirst vals, (digitsToNat ∘ natToDec) n = id n := by
          intro n _
          exact digitsToNat_natToDec n
        rw [List.map_congr_left h1, List.map_id]
      have hall2 : ((dedupFirst vals).map natToDec).all fitsInt64 = true := by
        rw [List.all_eq_true]
        intro t ht
        obtain ⟨n, hn, rfl⟩ := List.mem_map.mp ht
        have hnum : toNumeric (natToDec n) = some n := by
          rw [toNumeric_ascii (natToDec_ne_nil n) (natToDec_all_ascii n), digitsToNat_natToDec]
        simp only [fitsInt64, hnum]
        exact decide_eq_true (vals_le _ hfit n ((mem_dedupFirst n vals).mp hn))
      rw [if_pos hall2, hfm, hmapmap, dedupFirst_eq_self (dedupFirst_nodup vals)]
    · rw [if_neg hfit]
      have hall2 : ¬ (dedupFirst (tokensOf text)).all fitsInt64 = true := by
        intro hall
        apply hfit
        rw [List.all_eq_true] at hall ⊢
        intro t ht
        exact hall t ((mem_dedupFirst t _).mpr ht)
      rw [if_neg hall2, dedupFirst_eq_self (dedupFirst_nodup (tokensOf text))]

theorem format_sql_cons (x : List Char) (xs : List (List Char)) :
    format_sql_list (x :: xs) =
      (sqChar :: (x ++ [sqChar])) ++ (if xs = [] then [] else ',' :: format_sql_list xs) := by
  rw [format_sql_list, List.map_cons, intercalate_comma_cons]
  by_cases h : xs = [] <;> simp [h, format_sql_list]

/-- C1: evaluation at the failing input.  The code returns the two elements
12345678 and 0 for the input 12345678.0: the dot is replaced by a delimiter at
line 121 before the trailing dot-zero replacement of line 135 could ever apply
(that replacement is dead code on digit-only tokens), so the fractional zero
survives as its own identifier, whereas the claim expects the single element
12345678 with the float artifact stripped. -/
theorem claim_C1_eval :
    process_contract_ids (some "12345678.0".data) = ["12345678".data, "0".data] ∧
      process_contract_ids (some "12345678.0".data) ≠ ["12345678".data] :=
  ⟨by decide, by decide⟩

/-- C2, counterexample: the input 5 followed by the Arabic-Indic digit three is
tokenized into two digit runs (the regex d keeps Unicode digits); the second
token cannot be represented as an integer - pd.to_numeric coerces it to a
missing value - yet normalize does not keep the batch in string form: it
canonicalizes the first token and silently drops the offending one, returning
just the element 5, so the claimed whole-batch string fallback is false. -/
theorem claim_C2_counterexample :
    ("٣".data ∈ tokensOf "5 ٣".data ∧ toNumeric "٣".data = none) ∧
      process_contract_ids (some "5 ٣".data) = ["5".data] ∧
      "٣".data ∉ process_contract_ids (some "5 ٣".data) := by
  decide

/-- C2, amended: the whole-batch string fallback is triggered exactly when some
token parses to a value outside the Int64 range (the astype of line 139 raises
and the except keeps the string column): then the result is the
first-occurrence deduplication of the token strings and every token still
appears.  A token the numeric parser cannot parse at all - such as a run of
non-ASCII digits - is instead coerced to a missing value and silently dropped
by dropna (see the counterexample).  The embedding is a total function,
reflecting that no input raises an error. -/
theorem claim_C2_fallback (text : List Char)
    (h : ∃ t ∈ tokensOf text, ∃ n, toNumeric t = some n ∧ int64Max < n) :
    process_contract_ids (some text) = dedupFirst (tokensOf text) ∧
      ∀ t ∈ tokensOf text, t ∈ process_contract_ids (some text) := by
  obtain ⟨t0, ht0, n, hn, hgt⟩ := h
  have hfit : ¬ (tokensOf text).all fitsInt64 = true := by
    intro hall
    have h2 := List.all_eq_true.mp hall t0 ht0
    simp only [fitsInt64, hn] at h2
    have h3 := of_decide_eq_true h2
    omega
  have heq : process_contract_ids (some text) = dedupFirst (tokensOf text) := by
    rw [process_some_eq, if_neg hfit]
  refine ⟨heq, fun t ht => ?_⟩
  rw [heq]
  exact (mem_dedupFirst t _).mpr ht

theorem claim_C2_witness :
    process_contract_ids (some "18446744073709551616 7".data) =
        dedupFirst (tokensOf "18446744073709551616 7".data) ∧
      ∀ t ∈ tokensOf "18446744073709551616 7".data,
        t ∈ process_contract_ids (some "18446744073709551616 7".data) :=
  claim_C2_fallback "18446744073709551616 7".data
    ⟨"18446744073709551616".data, by decide, 18446744073709551616, by decide, by decide⟩

/-- C3, counterexample: the oversize first token forces the string fallback,
and the surviving batch retains the Arabic-Indic digit run ٣ (a digit run for
the Unicode regex d of line 121), so the output contains an element that does
not match the anchored ASCII class [0-9]+ claimed by the invariant. -/
theorem claim_C3_counterexample :
    "٣".data ∈ process_contract_ids (some "99999999999999999999999999 ٣".data) ∧
      ¬ "٣".data.all isAsciiDigit = true := by
  decide

/-- C3, amended: for every input - absent or present - the result has no
duplicate value and every member is a nonempty run of Unicode decimal digits
(the class matched by the regex d of line 121), so in particular no empty
string; membership in the ASCII class [0-9] additionally holds for every
member whenever the batch takes the numeric branch (every token passes the
Int64 cast), but can fail for a string-fallback batch that retained a
non-ASCII digit run. -/
theorem claim_C3_invariant (raw : Option (List Char)) :
    (process_contract_ids raw).Nodup ∧
      (∀ t ∈ process_contract_ids raw, t ≠ [] ∧ t.all isDigitChar = true) ∧
      (∀ text, raw = some text → (tokensOf text).all fitsInt64 = true →
        ∀ t ∈ process_contract_ids raw, t.all isAsciiDigit = true) := by
  cases raw with
  | none =>
    refine ⟨List.nodup_nil, ?_, ?_⟩
    · intro t ht
      simp [process_contract_ids] at ht
    · intro text htext
      exact absurd htext (by simp)
  | some text =>
    refine ⟨?_, process_members text, ?_⟩
    · rw [process_some_eq]
      by_cases hfit : (tokensOf text).all fitsInt64 = true
      · rw [if_pos hfit]
        exact (dedupFirst_nodup _).map natToDec_injective
      · rw [if_neg hfit]
        exact dedupFirst_nodup _
    · intro text2 heq hfit t ht
      have htext : text2 = text := by
        injection heq with h
        exact h.symm
      subst htext
      rw [process_some_eq, if_pos hfit] at ht
      obtain ⟨n, _, rfl⟩ := List.mem_map.mp ht
      exact natToDec_all_ascii n

theorem claim_C3_witness :
    (process_contract_ids (some "12 34 12".data)).Nodup ∧
      ("12".data ≠ [] ∧ "12".data.all isDigitChar = true) ∧
      "12".data.all isAsciiDigit = true :=
  ⟨(claim_C3_invariant (some "12 34 12".data)).1,
    (claim_C3_invariant (some "12 34 12".data)).2.1 "12".data (by decide),
    (claim_C3_invariant (some "12 34 12".data)).2.2 "12 34 12".data rfl (by decide)
      "12".data (by decide)⟩

/-- C4: every maximal run of non-digit characters acts as a delimiter and the
digit runs appear in input order: the mixed free-text example of the spec
yields exactly its four identifiers in order of appearance. -/
theorem claim_C4_order :
    process_contract_ids (some "ID: 12345678 (note) 90123456, 78901234\n56789012".data) =
      ["12345678".data, "90123456".data, "78901234".data, "56789012".data] := by
  decide

/-- C5: the result lists each distinct cleaned identifier once, in first-seen
order: it has no duplicates, it has the same members as the cleaned identifier
sequence, and its order is by strictly increasing index of first occurrence in
that sequence; the spec example of three copies of 100 collapses to one. -/
theorem claim_C5_dedup (text : List Char) :
    (process_contract_ids (some text)).Nodup ∧
      (∀ x, x ∈ process_contract_ids (some text) ↔ x ∈ cleanedSequence text) ∧
      (process_contract_ids (some text)).Pairwise
        (fun a b => firstIdx a (cleanedSequence text) < firstIdx b (cleanedSequence text)) ∧
      process_contract_ids (some "100, 100, 100".data) = ["100".data] := by
  refine ⟨?_, ?_, ?_, by decide⟩
  · rw [process_some_eq_dedup]
    exact dedupFirst_nodup _
  · intro x
    rw [process_some_eq_dedup]
    exact mem_dedupFirst x (cleanedSequence text)
  · rw [process_some_eq_dedup]
    exact dedupFirst_pairwise (cleanedSequence text)

theorem claim_C5_witness :
    (process_contract_ids (some "100, 200, 100".data)).Nodup ∧
      ("100".data ∈ process_contract_ids (some "100, 200, 100".data) ↔
        "100".data ∈ cleanedSequence "100, 200, 100".data) ∧
      process_contract_ids (some "100, 100, 100".data) = ["100".data] :=
  ⟨(claim_C5_dedup "100, 200, 100".data).1,
    (claim_C5_dedup "100, 200, 100".data).2.1 "100".data,
    (claim_C5_dedup "100, 200, 100".data).2.2.2⟩

/-- C6: idempotence through re-joining: normalizing the comma-join of a result
reproduces exactly the same result, in the same order, for every input. -/
theorem claim_C6_idempotent (text : List Char) :
    process_contract_ids
        (some (List.intercalate [','] (process_contract_ids (some text)))) =
      process_contract_ids (some text) :=
  process_idem text

theorem claim_C6_witness :
    process_contract_ids
        (some (List.intercalate [','] (process_contract_ids (some "ab12cd12, 7".data)))) =
      process_contract_ids (some "ab12cd12, 7".data) :=
  claim_C6_idempotent "ab12cd12, 7".data

/-- C7: format_sql_list maps the empty list to the empty string, maps the spec
example list 1,2,3 to the single-quoted comma-joined literal, and on every
nonempty list it is the quoted head followed - when more identifiers remain -
by a comma and the formatted tail: no surrounding brackets, no trailing comma,
no whitespace are ever produced. -/
theorem claim_C7_format :
    format_sql_list [] = [] ∧
      format_sql_list ["1".data, "2".data, "3".data] =
        [sqChar, '1', sqChar, ',', sqChar, '2', sqChar, ',', sqChar, '3', sqChar] ∧
      ∀ (x : List Char) (xs : List (List Char)),
        format_sql_list (x :: xs) =
          (sqChar :: (x ++ [sqChar])) ++
            (if xs = [] then [] else ',' :: format_sql_list xs) :=
  ⟨rfl, by decide, format_sql_cons⟩

theorem claim_C7_witness :
    format_sql_list (['7'] :: []) =
      (sqChar :: (['7'] ++ [sqChar])) ++
        (if ([] : List (List Char)) = [] then [] else ',' :: format_sql_list []) :=
  claim_C7_format.2.2 ['7'] []

/-- C8: an absent input and the empty input both give the empty result, with
no error signalled (the function is total and returns the empty list). -/
theorem claim_C8_empty :
    process_contract_ids none = [] ∧ process_contract_ids (some "".data) = [] :=
  ⟨rfl, by decide⟩

/-- C9: the all-garbage example of the spec gives the empty result: pieces that
are empty after trimming, contain no digits, or spell nan in any case never
contribute an identifier. -/
theorem claim_C9_discard :
    process_contract_ids (some "abc, , nan, NaN".data) = [] := by
  decide

/-- C10, counterexample: the claimed equality with the simplified
extract-canonicalize-dedup function fails at a single token with a leading
zero whose value exceeds the Int64 range: the code falls back to the raw
string 018446744073709551616 while the simplified function canonicalizes it
to 18446744073709551616. -/
theorem claim_C10_counterexample :
    process_contract_ids (some "018446744073709551616".data) ≠
      simpleNormalize "018446744073709551616".data := by
  decide

/-- C10, amended: the nan filter and the trailing dot-zero substitution of
lines 133-135 never change any element (the token list passes through them
unchanged), and process_contract_ids equals the simplified function that
extracts digit runs, canonicalizes each as an integer and deduplicates keeping
first occurrences, provided every digit run is made of ASCII digits and its
value fits in Int64.  Outside that domain the equality fails: a run whose
value exceeds Int64 pushes the whole batch into the raw-string fallback with
no canonicalization (the counterexample), and a non-ASCII digit run is coerced
to a missing value and dropped rather than canonicalized. -/
theorem claim_C10_amended (text : List Char) :
    (((tokensOf text).filter (fun t => t ≠ [])).filter
        (fun t => pyLower t ≠ ['n', 'a', 'n'])).map stripDotZero = tokensOf text ∧
      ((∀ t ∈ digitRuns text, t.all isAsciiDigit = true ∧ digitsToNat t ≤ int64Max) →
        process_contract_ids (some text) = simpleNormalize text) := by
  have hfacts := tokensOf_members text
  have hs1 : (tokensOf text).filter (fun t => t ≠ []) = tokensOf text :=
    List.filter_eq_self.mpr (fun t ht => decide_eq_true (hfacts t ht).1)
  have hs2 : (tokensOf text).filter (fun t => pyLower t ≠ ['n', 'a', 'n']) = tokensOf text :=
    List.filter_eq_self.mpr
      (fun t ht => decide_eq_true (pyLower_ne_nan (hfacts t ht).1 (hfacts t ht).2))
  have hs3 : (tokensOf text).map stripDotZero = tokensOf text := by
    have h1 : ∀ t ∈ tokensOf text, stripDotZero t = id t :=
      fun t ht => stripDotZero_digit (hfacts t ht).2
    rw [List.map_congr_left h1, List.map_id]
  refine ⟨by rw [hs1, hs2, hs3], ?_⟩
  intro hle
  have htok : ∀ t ∈ tokensOf text, t.all isAsciiDigit = true ∧ digitsToNat t ≤ int64Max := by
    rw [tokensOf_eq_digitRuns]
    exact hle
  have hfit : (tokensOf text).all fitsInt64 = true := by
    rw [List.all_eq_true]
    intro t ht
    simp only [fitsInt64, toNumeric_ascii (hfacts t ht).1 (htok t ht).1]
    exact decide_eq_true (htok t ht).2
  have hfm : (tokensOf text).filterMap toNumeric = (tokensOf text).map digitsToNat :=
    filterMap_toNumeric _ (fun t ht => ⟨(hfacts t ht).1, (htok t ht).1⟩)
  rw [process_some_eq, if_pos hfit, hfm, tokensOf_eq_digitRuns, simpleNormalize]

theorem claim_C10_witness :
    ((((tokensOf "05, 5".data).filter (fun t => t ≠ [])).filter
        (fun t => pyLower t ≠ ['n', 'a', 'n'])).map stripDotZero = tokensOf "05, 5".data) ∧
      (∀ t ∈ digitRuns "05, 5".data, t.all isAsciiDigit = true ∧ digitsToNat t ≤ int64Max) ∧
      process_contract_ids (some "05, 5".data) = simpleNormalize "05, 5".data :=
  ⟨(claim_C10_amended "05, 5".data).1, by decide,
    (claim_C10_amended "05, 5".data).2 (by decide)⟩

